import Mathlib

/-!
Verification of the `ecbx` exchange-rate store, the `harvest_rounder`
time-entry rounding utilities and the `sevdesk-api` object resolver of the
freelancer-toolbox repository.

The SQLite `rates` table of `ecbx/store.py` (equally `ecbx/ecbx.py`) is
modelled as a list of rows managed through `insertRate` (INSERT OR REPLACE
on the primary key `(date, base_currency, target_currency)`) and
`lookupRate` (a point SELECT on that key).  Dates are modelled as natural
numbers (day indices): ISO `YYYY-MM-DD` strings compare lexicographically
exactly as their day numbers compare, and SQLite's
`julianday(a) - julianday(b)` is the signed difference of day numbers.
Python `Decimal` values are modelled as exact rationals; `Decimal`
arithmetic at the magnitudes stored (quotients and products of ECB
reference rates) is treated as exact.
-/

namespace Ecbx

/-- One row of the `rates` table:
`(date TEXT, base_currency TEXT, target_currency TEXT, rate DECIMAL)`. -/
structure Row where
  date : Nat
  base : String
  target : String
  rate : Rat
deriving DecidableEq, Repr

/-- The `rates` table.  The schema's PRIMARY KEY makes the key of
`Row.key` unique in any state SQLite reaches; `KeyUnique` states that. -/
abbrev Table := List Row

/-- The primary key `(date, base_currency, target_currency)` of a row. -/
def Row.key (r : Row) : Nat × String × String := (r.date, r.base, r.target)

/-- The PRIMARY KEY constraint of the `rates` schema. -/
abbrev KeyUnique (t : Table) : Prop := t.Pairwise (fun r s => r.key ≠ s.key)

/-- `INSERT OR REPLACE INTO rates`: the new row replaces any row with the
same primary key. -/
def insertRate (t : Table) (r : Row) : Table :=
  r :: t.filter (fun s => !decide (s.key = r.key))

/-- `SELECT rate FROM rates WHERE date = ? AND base_currency = ? AND
target_currency = ?`. -/
def lookupRate (t : Table) (d : Nat) (b c : String) : Option Rat :=
  (t.find? (fun r => decide (r.key = (d, b, c)))).map Row.rate

/-- `find?` ignores a filter that only removes elements the predicate
rejects. -/
theorem find?_filter_of_imp {α : Type} (l : List α) (p q : α → Bool)
    (h : ∀ a, p a = true → q a = true) :
    (l.filter q).find? p = l.find? p := by
  induction l with
  | nil => rfl
  | cons a l ih =>
    by_cases hq : q a = true
    · simp only [List.filter_cons, hq, if_true, List.find?_cons]
      cases hp : p a
      · simpa [List.find?_cons, hp] using ih
      · simp [List.find?_cons, hp]
    · have hp : p a = false := by
        cases hpa : p a
        · rfl
        · exact absurd (h a hpa) hq
      simp only [List.filter_cons, hq, if_false, List.find?_cons, hp]
      simpa [List.find?_cons, hp] using ih

/-- Looking a key up after an INSERT OR REPLACE: the inserted row shadows
exactly its own key. -/
theorem lookupRate_insertRate (t : Table) (r : Row) (d : Nat) (b c : String) :
    lookupRate (insertRate t r) d b c =
      if r.key = (d, b, c) then some r.rate else lookupRate t d b c := by
  unfold lookupRate insertRate
  by_cases hk : r.key = (d, b, c)
  · rw [List.find?_cons_of_pos _ (by simpa using hk)]
    simp [hk]
  · rw [List.find?_cons_of_neg _ (by simpa using hk)]
    rw [find?_filter_of_imp]
    · simp [hk]
    · intro a ha
      simp only [decide_eq_true_eq] at ha
      simp only [Bool.not_eq_true', decide_eq_false_iff_not]
      rw [ha]
      exact fun hkk => hk hkk.symm

/-- A lookup succeeds exactly when the table has a row with that key. -/
theorem lookupRate_isSome_iff (t : Table) (d : Nat) (b c : String) :
    (lookupRate t d b c).isSome ↔ ∃ r ∈ t, r.key = (d, b, c) := by
  unfold lookupRate
  constructor
  · intro h
    rcases Option.isSome_iff_exists.mp h with ⟨v, hv⟩
    rcases Option.map_eq_some'.mp hv with ⟨r, hr, _⟩
    exact ⟨r, List.mem_of_find?_eq_some hr, by simpa using List.find?_some hr⟩
  · rintro ⟨r, hr, hk⟩
    have : (t.find? (fun r => decide (r.key = (d, b, c)))).isSome := by
      rw [List.find?_isSome]
      exact ⟨r, hr, by simpa using hk⟩
    rcases Option.isSome_iff_exists.mp this with ⟨s, hs⟩
    simp [hs]

/-- A successful lookup returns the rate of a row of the table with that
key. -/
theorem lookupRate_some_mem (t : Table) (d : Nat) (b c : String) (v : Rat)
    (h : lookupRate t d b c = some v) : (⟨d, b, c, v⟩ : Row) ∈ t := by
  unfold lookupRate at h
  rcases Option.map_eq_some'.mp h with ⟨r, hr, hv⟩
  have hmem := List.mem_of_find?_eq_some hr
  have hkey := List.find?_some hr
  simp only [decide_eq_true_eq, Row.key, Prod.mk.injEq] at hkey
  obtain ⟨h1, h2, h3⟩ := hkey
  have : r = ⟨d, b, c, v⟩ := by
    cases r
    simp_all
  rwa [this] at hmem

/-- The `closest_rate` strategies of `ExchangeRateStore.get_rate`
(`BEFORE`, `AFTER`, `CLOSEST` from `ecbx/constants.py`). -/
inductive ClosestRate where
  | before
  | after
  | closest
deriving DecidableEq, Repr

/-- A row of `l` whose measure `m` is minimal; ties keep the earliest row,
modelling `ORDER BY ... LIMIT 1` (over key-unique candidate sets the
minimiser is unique; for `CLOSEST` ties the row SQLite picks is
unspecified and this picks one). -/
def argminBy (m : Row → Int) : List Row → Option Row
  | [] => none
  | r :: rs => some (rs.foldl (fun best x => if m x < m best then x else best) r)

/-- The rows of the table for one currency pair
(`WHERE base_currency = ? AND target_currency = ?`). -/
def pairRows (t : Table) (b c : String) : List Row :=
  t.filter (fun r => decide (r.base = b) && decide (r.target = c))

/-- `WHERE date <= ? AND base_currency = ? AND target_currency = ?
ORDER BY date DESC LIMIT 1`. -/
def queryBefore (t : Table) (b c : String) (d : Nat) : Option Row :=
  argminBy (fun r => -(r.date : Int))
    ((pairRows t b c).filter (fun r => decide (r.date ≤ d)))

/-- `WHERE date >= ? AND base_currency = ? AND target_currency = ?
ORDER BY date ASC LIMIT 1`. -/
def queryAfter (t : Table) (b c : String) (d : Nat) : Option Row :=
  argminBy (fun r => (r.date : Int))
    ((pairRows t b c).filter (fun r => decide (d ≤ r.date)))

/-- `SELECT date, rate, ABS(julianday(date) - julianday(?)) as diff ...
ORDER BY diff ASC LIMIT 1`. -/
def queryClosest (t : Table) (b c : String) (d : Nat) : Option Row :=
  argminBy (fun r => |(r.date : Int) - (d : Int)|) (pairRows t b c)

/-- `ExchangeRateStore.get_rate`, after the `as_of_date` argument has been
resolved to a concrete date (the `'latest'` metadata lookup and the
`date`-object formatting of the source yield such a date, and the source
first normalises the currency codes with `.upper()`; queries are modelled
at normalised codes, which is how every code is stored).  Returns the pair
`(date, rate)` of the found row, or `(d, none)`. -/
def get_rate (t : Table) (b c : String) (d : Nat) (strat : Option ClosestRate) :
    Nat × Option Rat :=
  match lookupRate t d b c with
  | some r => (d, some r)
  | none =>
    match strat with
    | none => (d, none)
    | some .before =>
      match queryBefore t b c d with
      | some row => (row.date, some row.rate)
      | none => (d, none)
    | some .after =>
      match queryAfter t b c d with
      | some row => (row.date, some row.rate)
      | none => (d, none)
    | some .closest =>
      match queryClosest t b c d with
      | some row => (row.date, some row.rate)
      | none => (d, none)

/-- The data of one `<Cube time="...">` node of the parsed ECB XML: a date
and the `(currency, rate)` attributes of its child nodes. -/
structure DayData where
  date : Nat
  rates : List (String × Rat)
deriving DecidableEq, Repr

/-- Ingesting one parsed `(currency, rate)` attribute pair for a date:
the EUR-to-currency row, then the inverse currency-to-EUR row with rate
`Decimal(1) / rate`. -/
def ingestEntry (t : Table) (d : Nat) (c : String) (r : Rat) : Table :=
  insertRate (insertRate t ⟨d, "EUR", c, r⟩) ⟨d, c, "EUR", 1 / r⟩

/-- The inner loop over the currency nodes of one date node. -/
def ingestDay (t : Table) (day : DayData) : Table :=
  day.rates.foldl (fun acc p => ingestEntry acc day.date p.1 p.2) t

/-- The running maximum the source keeps in `latest_date` (equally Python's
`max(dates)` over the ingested dates); `none` when no date was seen. -/
def latestDate : List DayData → Option Nat
  | [] => none
  | day :: rest =>
    match latestDate rest with
    | none => some day.date
    | some m => some (max day.date m)

/-- Database state: the `rates` table and the `last_updated` metadata row. -/
structure DB where
  rates : Table
  lastUpdated : Option Nat
deriving DecidableEq, Repr

/-- A freshly created database (tables exist, nothing ingested). -/
def DB.empty : DB := ⟨[], none⟩

/-- `ExchangeRateStore.initialize`, given the parsed historical XML data:
creates the tables (implicit here), ingests every date node's rates in
order, and stores `max(dates)` as `last_updated` when any date was seen.
The returned `(rate_count, date_count)` pair is not modelled. -/
def initializeStore (db : DB) (data : List DayData) : DB :=
  let t := data.foldl ingestDay db.rates
  match latestDate data with
  | none => { rates := t, lastUpdated := db.lastUpdated }
  | some m => { rates := t, lastUpdated := some m }

/-- `SELECT DISTINCT target_currency FROM rates WHERE date = ? AND
base_currency = 'EUR'`. -/
def eurCurrencies (t : Table) (d : Nat) : List String :=
  ((t.filter (fun r => decide (r.date = d) && decide (r.base = "EUR"))).map
    Row.target).dedup

/-- The inner loop of `_calculate_cross_rates`: for one `base` currency
with rate `beur` to EUR, walk the `targets` list, skip EUR and `base`,
look the EUR-to-target rate up in the live table, and INSERT OR REPLACE
the cross-rate `eur_to_target_rate * base_to_eur_rate`. -/
def crossRatesForBase (d : Nat) (base : String) (beur : Rat) :
    List String → Table → Table
  | [], acc => acc
  | tg :: ts, acc =>
    if tg = "EUR" ∨ tg = base then crossRatesForBase d base beur ts acc
    else
      match lookupRate acc d "EUR" tg with
      | none => crossRatesForBase d base beur ts acc
      | some et =>
        crossRatesForBase d base beur ts (insertRate acc ⟨d, base, tg, et * beur⟩)

/-- The outer loop of `_calculate_cross_rates` over the base currencies:
skip EUR, look the base-to-EUR rate up in the live table (continue when it
is absent), and run the inner loop over the full currency list. -/
def calcOuter (d : Nat) (cs : List String) : List String → Table → Table
  | [], acc => acc
  | base :: bs, acc =>
    if base = "EUR" then calcOuter d cs bs acc
    else
      match lookupRate acc d base "EUR" with
      | none => calcOuter d cs bs acc
      | some beur => calcOuter d cs bs (crossRatesForBase d base beur cs acc)

/-- `ExchangeRateStore._calculate_cross_rates(date_str)`. -/
def calcCrossRates (t : Table) (d : Nat) : Table :=
  calcOuter d (eurCurrencies t d) (eurCurrencies t d) t

/-- The skip test of `ExchangeRateStore.update`: a fetched date node is
kept when `last_update` is unset or the date is strictly newer
(`if last_update and date_str <= last_update: continue`). -/
def newDay (lu : Option Nat) (day : DayData) : Bool :=
  match lu with
  | some l => decide (l < day.date)
  | none => true

/-- `ExchangeRateStore.update`, given the parsed 90-day XML data and an
initialized database: ingests every fetched date node strictly newer than
`last_updated`, then, when any was ingested, computes cross-rates for the
newest ingested date and stores it as `last_updated`.  The returned
`(rate_count, latest_date)` pair is not modelled. -/
def updateStore (db : DB) (data : List DayData) : DB :=
  let newDays := data.filter (newDay db.lastUpdated)
  let t := newDays.foldl ingestDay db.rates
  match latestDate newDays with
  | none => { rates := t, lastUpdated := db.lastUpdated }
  | some m => { rates := calcCrossRates t m, lastUpdated := some m }

/-- Parsed data whose rates a real run can ingest (Decimal division by a
zero rate would abort the Python transaction). -/
def ValidData (data : List DayData) : Prop :=
  ∀ day ∈ data, ∀ p ∈ day.rates, p.2 ≠ 0

instance : DecidablePred ValidData := fun data => by
  unfold ValidData
  infer_instance

/-- The database states a sequence of `initialize()` and `update()` runs
can produce from a fresh database. -/
inductive Reachable : DB → Prop
  | empty : Reachable DB.empty
  | init (db : DB) (data : List DayData) :
      Reachable db → ValidData data → Reachable (initializeStore db data)
  | upd (db : DB) (data : List DayData) :
      Reachable db → ValidData data → Reachable (updateStore db data)

/-- Python's `datetime.weekday()` of a day index: days are counted so that
day 0 is a Monday, hence Monday–Sunday are 0–6 as in Python. -/
def weekday (d : Int) : Int := d % 7

/-- `get_last_business_day` from `ecbx/utils.py` (equally `ecbx/ecbx.py`),
on day indices: weekdays map to themselves, Saturday to the day before,
Sunday to two days before. -/
def get_last_business_day (d : Int) : Int :=
  if weekday d < 5 then d
  else if weekday d = 5 then d - 1
  else d - 2

end Ecbx

/-!
`harvest_rounder/__init__.py`: rounding Harvest time entries up to an
increment.  Python `Fraction` values are exact rationals, so they embed as
`Rat` directly.
-/

namespace HarvestRounder

/-- Python's `int()` on a `Fraction`: truncation towards zero. -/
def pyInt (q : Rat) : Int := q.num.tdiv q.den

/-- `round_to_increment(hours, increment_minutes)`: round `hours` up to
the next multiple of `increment_minutes / 60` hours; zero and exact
multiples are returned unchanged. -/
def round_to_increment (hours : Rat) (increment_minutes : Nat) : Rat :=
  let increment_hours : Rat := (increment_minutes : Rat) / 60
  if hours = 0 then 0
  else
    let increments := hours / increment_hours
    if increments.den = 1 then hours
    else increment_hours * ((pyInt increments + 1 : Int) : Rat)

/-- The continued-fraction loop of CPython's
`Fraction.limit_denominator`, with explicit fuel (the remainder
denominator strictly decreases, so `den + 1` steps always suffice). -/
def limitDenLoop (md : Int) :
    Nat → Int × Int × Int × Int → Int → Int → Int × Int × Int × Int × Int × Int
  | 0, (p0, q0, p1, q1), n, d => (p0, q0, p1, q1, n, d)
  | fuel + 1, (p0, q0, p1, q1), n, d =>
    if d = 0 then (p0, q0, p1, q1, n, d)
    else
      let a := n.fdiv d
      let q2 := q0 + a * q1
      if md < q2 then (p0, q0, p1, q1, n, d)
      else limitDenLoop md fuel (p1, q1, p0 + a * p1, q2) d (n - a * d)

/-- CPython's `Fraction.limit_denominator(max_denominator)`: the closest
fraction with denominator at most `md` (used by `parse_time_entry` with
`md = 1000`). -/
def limit_denominator (x : Rat) (md : Nat) : Rat :=
  if x.den ≤ md then x
  else
    match limitDenLoop (md : Int) (x.den + 1) (0, 1, 1, 0) x.num (x.den : Int) with
    | (p0, q0, p1, q1, _, d) =>
      let k := ((md : Int) - q0).fdiv q1
      if 2 * d * (q0 + k * q1) ≤ (x.den : Int) then (p1 : Rat) / (q1 : Rat)
      else ((p0 + k * p1 : Int) : Rat) / ((q0 + k * q1 : Int) : Rat)

/-- The `TimeEntry` dataclass. -/
structure TimeEntry where
  id : Int
  date : String
  hours : Rat
  rounded_hours : Rat
  notes : String
  project : String
  task : String
  client : String
  user : String
deriving DecidableEq, Repr

/-- The fields `parse_time_entry` reads from one raw Harvest API time
entry (`hours` is the numeric value of the JSON field; `notes` is `none`
when the field is absent or `null`). -/
structure RawEntry where
  id : Int
  spent_date : String
  hours : Rat
  notes : Option String
  project : String
  task : String
  client : String
  user : String
deriving DecidableEq, Repr

/-- `parse_time_entry(entry, increment_minutes)`. -/
def parse_time_entry (e : RawEntry) (m : Nat) : TimeEntry :=
  let hours := limit_denominator e.hours 1000
  { id := e.id
    date := e.spent_date
    hours := hours
    rounded_hours := round_to_increment hours m
    notes := e.notes.getD ""
    project := e.project
    task := e.task
    client := e.client
    user := e.user }

/-- One page of the paginated Harvest response: its `time_entries` list.
A full pagination run is a finite list of pages, the successive responses
along the chain of `next` links (the last page's `next` is `None`). -/
structure Page where
  time_entries : List RawEntry
deriving DecidableEq, Repr

/-- The `while url is not None` loop of `get_time_entries`: each iteration
extends the accumulator with the parsed entries of the next page. -/
def getEntriesLoop (m : Nat) : List Page → List TimeEntry → List TimeEntry
  | [], acc => acc
  | p :: rest, acc =>
    getEntriesLoop m rest (acc ++ p.time_entries.map (fun e => parse_time_entry e m))

/-- `get_time_entries`, given the finite chain of page responses. -/
def get_time_entries (pages : List Page) (m : Nat) : List TimeEntry :=
  getEntriesLoop m pages []

end HarvestRounder

/-!
`sevdesk-api/sevdesk_api/object_resolver.py`: the cached dynamic object
resolver.  The SevDesk API is modelled as a function from object type to
the list of fetched raw objects (`client.get(object_type.value)` with
`limit=1000`); raising `ValueError` is modelled as `Except.error`.
-/

namespace Sevdesk

/-- The `ObjectType` enum. -/
inductive ObjectType where
  | unity
  | taxRule
deriving DecidableEq, Repr

/-- `ObjectType.value`. -/
def ObjectType.value : ObjectType → String
  | .unity => "Unity"
  | .taxRule => "TaxRule"

/-- A raw object of the API response: its `id` field and its other
string-valued fields as an association list. -/
structure RawObj where
  id : Int
  attrs : List (String × String)
deriving DecidableEq, Repr

/-- Python `obj.get(field)`: `none` when the field is absent. -/
def RawObj.get (o : RawObj) (f : String) : Option String :=
  (o.attrs.find? (fun p => decide (p.1 = f))).map Prod.snd

/-- A cache entry built by `_fetch_objects`: always carries `id`, `name`
and `objectName`, plus the optional extra fields. -/
structure Entry where
  id : Int
  name : String
  objectName : String
  extra : List (String × String)
deriving DecidableEq, Repr

/-- The dict value `_fetch_objects` builds for one raw object:
`id`, `name` (default `""`), `objectName` (default the type's value), and
whichever of `code`, `priority`, `color`, `systemType` are present. -/
def mkEntry (ot : ObjectType) (o : RawObj) : Entry :=
  { id := o.id
    name := (o.get "name").getD ""
    objectName := (o.get "objectName").getD ot.value
    extra := ["code", "priority", "color", "systemType"].filterMap
      (fun f => (o.get f).map (fun v => (f, v))) }

/-- One object map of the cache, keyed by the objects' key-field values. -/
abbrev ObjMap := List (String × Entry)

/-- Python dict lookup on an object map. -/
def mapLookup (m : ObjMap) (k : String) : Option Entry :=
  (m.find? (fun p => decide (p.1 = k))).map Prod.snd

/-- Python dict assignment on an object map. -/
def mapInsert (m : ObjMap) (k : String) (e : Entry) : ObjMap :=
  (k, e) :: m.filter (fun p => !decide (p.1 = k))

/-- One step of the `_fetch_objects` loop: map a truthy key-field value
to its entry (an object whose key field is absent or the empty string is
skipped; later objects overwrite earlier ones with the same key value). -/
def fetchStep (ot : ObjectType) (kf : String) (m : ObjMap) (o : RawObj) : ObjMap :=
  match o.get kf with
  | none => m
  | some kv => if kv = "" then m else mapInsert m kv (mkEntry ot o)

/-- `ObjectResolver._fetch_objects(object_type, key_field)`: walk the
fetched objects in order, building the key map step by step. -/
def fetchObjects (api : ObjectType → List RawObj) (ot : ObjectType)
    (keyField : String) : ObjMap :=
  (api ot).foldl (fetchStep ot keyField) []

/-- The resolver's `_cache`, keyed by `(object_type, key_field)`. -/
abbrev Cache := List ((ObjectType × String) × ObjMap)

/-- Cache lookup. -/
def cacheLookup (cache : Cache) (ck : ObjectType × String) : Option ObjMap :=
  (cache.find? (fun p => decide (p.1 = ck))).map Prod.snd

/-- Cache assignment. -/
def cacheInsert (cache : Cache) (ck : ObjectType × String) (m : ObjMap) : Cache :=
  (ck, m) :: cache.filter (fun p => !decide (p.1 = ck))

/-- `ObjectResolver.get_object(object_type, key, key_field)`: populate the
cache for `(object_type, key_field)` when empty; when `key` is missing,
refresh the cache once and look again; when it is still missing, raise
`ValueError` (the message listing the available keys is abbreviated
here).  Returns the updated cache with the result. -/
def get_object (api : ObjectType → List RawObj) (cache : Cache)
    (ot : ObjectType) (key keyField : String) : Cache × Except String Entry :=
  let ck := (ot, keyField)
  let cache1 :=
    match cacheLookup cache ck with
    | some _ => cache
    | none => cacheInsert cache ck (fetchObjects api ot keyField)
  let m1 := (cacheLookup cache1 ck).getD []
  match mapLookup m1 key with
  | some e => (cache1, .ok e)
  | none =>
    let m2 := fetchObjects api ot keyField
    let cache2 := cacheInsert cache1 ck m2
    match mapLookup m2 key with
    | some e => (cache2, .ok e)
    | none =>
      (cache2, .error (ot.value ++ " with " ++ keyField ++ " = " ++ key ++ " not found"))

/-- Whether the call raised `ValueError`. -/
def isError : Except String Entry → Bool
  | .error _ => true
  | .ok _ => false

/-- A cache every entry of which agrees with what `_fetch_objects` would
return: with a fixed API this holds for every cache the resolver itself
builds, since only `_fetch_objects` writes cache entries. -/
def CacheConsistent (api : ObjectType → List RawObj) (cache : Cache) : Prop :=
  ∀ ot kf m, cacheLookup cache (ot, kf) = some m → m = fetchObjects api ot kf

end Sevdesk

/-! ## Claim C10: `get_last_business_day` -/

namespace Ecbx

/-- C10. For every datetime `d`, `get_last_business_day d` returns `d`
itself on Monday–Friday, `d - 1` on Saturday and `d - 2` on Sunday;
consequently the result is always a weekday, is the latest weekday `≤ d`,
and is at most two days before `d`. -/
theorem get_last_business_day_spec (d : Int) :
    (weekday d < 5 → get_last_business_day d = d) ∧
    (weekday d = 5 → get_last_business_day d = d - 1) ∧
    (weekday d = 6 → get_last_business_day d = d - 2) ∧
    weekday (get_last_business_day d) < 5 ∧
    get_last_business_day d ≤ d ∧
    d - get_last_business_day d ≤ 2 ∧
    (∀ e : Int, weekday e < 5 → e ≤ d → e ≤ get_last_business_day d) := by
  have h7 : (0 : Int) ≤ d % 7 := Int.emod_nonneg d (by norm_num)
  have h7b : d % 7 < 7 := Int.emod_lt_of_pos d (by norm_num)
  unfold get_last_business_day weekday
  split_ifs with h1 h2
  · exact ⟨fun _ => rfl, fun h => absurd h (by omega), fun h => absurd h (by omega),
      h1, le_refl d, by omega, fun e _ he => he⟩
  · refine ⟨fun h => absurd h h1, fun _ => rfl, fun h => absurd h (by omega),
      by omega, by omega, by omega, fun e hw he => by omega⟩
  · refine ⟨fun h => absurd h h1, fun h => absurd h h2, fun _ => rfl,
      by omega, by omega, by omega, fun e hw he => by omega⟩

end Ecbx

/-! ## Claim C6: `get_time_entries` pagination -/

namespace HarvestRounder

/-- The pagination loop accumulates page after page. -/
theorem getEntriesLoop_eq (m : Nat) (pages : List Page) (acc : List TimeEntry) :
    getEntriesLoop m pages acc =
      acc ++
        (pages.map (fun p => p.time_entries.map (fun e => parse_time_entry e m))).flatten := by
  induction pages generalizing acc with
  | nil => simp [getEntriesLoop]
  | cons p rest ih =>
    simp [getEntriesLoop, ih, List.append_assoc]

/-- C6. For every finite chain of paginated responses, `get_time_entries`
terminates (it is a total function of the page list) and returns exactly
the concatenation, in page order, of one parsed `TimeEntry` per raw entry
of every page's `time_entries` list. -/
theorem get_time_entries_spec (pages : List Page) (m : Nat) :
    get_time_entries pages m =
      (pages.map (fun p => p.time_entries.map (fun e => parse_time_entry e m))).flatten := by
  unfold get_time_entries
  simpa using getEntriesLoop_eq m pages []

end HarvestRounder

/-! ## Claims C1 and C2: nearest-date resolution in `get_rate` -/

namespace Ecbx

/-- The running minimum kept by `argminBy` stays in the candidate set and
is minimal among the elements seen. -/
theorem argmin_fold (m : Row → Int) :
    ∀ (l : List Row) (b : Row),
      (l.foldl (fun best x => if m x < m best then x else best) b ∈ b :: l) ∧
      ∀ y ∈ b :: l, m (l.foldl (fun best x => if m x < m best then x else best) b) ≤ m y := by
  intro l
  induction l with
  | nil =>
    intro b
    refine ⟨by simp, ?_⟩
    intro y hy
    simp only [List.foldl_nil]
    simp only [List.mem_singleton] at hy
    rw [hy]
  | cons x xs ih =>
    intro b
    simp only [List.foldl_cons]
    by_cases hx : m x < m b
    · rw [if_pos hx]
      obtain ⟨hmem, hmin⟩ := ih x
      have hstart := hmin x (List.mem_cons_self x xs)
      constructor
      · rcases List.mem_cons.mp hmem with he | hm
        · rw [he]
          exact List.mem_cons_of_mem b (List.mem_cons_self x xs)
        · exact List.mem_cons_of_mem b (List.mem_cons_of_mem x hm)
      · intro y hy
        rcases List.mem_cons.mp hy with hyb | hy2
        · rw [hyb]
          exact le_trans hstart hx.le
        rcases List.mem_cons.mp hy2 with hyx | hyxs
        · rw [hyx]
          exact hstart
        · exact hmin y (List.mem_cons_of_mem _ hyxs)
    · rw [if_neg hx]
      obtain ⟨hmem, hmin⟩ := ih b
      have hstart := hmin b (List.mem_cons_self b xs)
      constructor
      · rcases List.mem_cons.mp hmem with he | hm
        · rw [he]
          exact List.mem_cons_self b (x :: xs)
        · exact List.mem_cons_of_mem b (List.mem_cons_of_mem x hm)
      · intro y hy
        rcases List.mem_cons.mp hy with hyb | hy2
        · rw [hyb]
          exact hstart
        rcases List.mem_cons.mp hy2 with hyx | hyxs
        · rw [hyx]
          exact le_trans hstart (not_lt.mp hx)
        · exact hmin y (List.mem_cons_of_mem _ hyxs)

/-- `argminBy` returns `none` exactly on the empty candidate list
(`ORDER BY ... LIMIT 1` returns a row whenever the WHERE clause matches
one). -/
theorem argminBy_eq_none (m : Row → Int) (l : List Row) :
    argminBy m l = none ↔ l = [] := by
  cases l <;> simp [argminBy]

/-- A returned row is a candidate of minimal measure. -/
theorem argminBy_some (m : Row → Int) (l : List Row) (row : Row)
    (h : argminBy m l = some row) : row ∈ l ∧ ∀ y ∈ l, m row ≤ m y := by
  cases l with
  | nil => simp [argminBy] at h
  | cons a as =>
    simp only [argminBy, Option.some.injEq] at h
    obtain ⟨hmem, hmin⟩ := argmin_fold m as a
    rw [h] at hmem hmin
    exact ⟨hmem, hmin⟩

/-- A row of one pair's candidate rows, with its side conditions. -/
theorem mem_pairRows (t : Table) (b c : String) (r : Row) :
    r ∈ pairRows t b c ↔ r ∈ t ∧ r.base = b ∧ r.target = c := by
  simp [pairRows, List.mem_filter, and_assoc]

/-- A row with the fields of a pair query is that literal row. -/
theorem row_eta (r : Row) (b c : String) (hb : r.base = b) (hc : r.target = c) :
    r = ⟨r.date, b, c, r.rate⟩ := by
  cases r
  simp_all

/-- C1. For every rates table and query `(b, c, d)` with no stored row at
exactly `d` for the pair, `get_rate` with `closest_rate = 'before'`
returns the pair's rate at the latest stored date `≤ d`, and with
`closest_rate = 'after'` the pair's rate at the earliest stored date
`≥ d`; when no stored date on the required side exists it returns
`(d, none)`. -/
theorem get_rate_before_after_spec (t : Table) (b c : String) (d : Nat)
    (hex : lookupRate t d b c = none) :
    ((∃ r ∈ t, r.base = b ∧ r.target = c ∧ r.date ≤ d) →
      ∃ d0 ρ, get_rate t b c d (some .before) = (d0, some ρ) ∧
        (⟨d0, b, c, ρ⟩ : Row) ∈ t ∧ d0 ≤ d ∧
        ∀ r ∈ t, r.base = b → r.target = c → r.date ≤ d → r.date ≤ d0) ∧
    ((¬ ∃ r ∈ t, r.base = b ∧ r.target = c ∧ r.date ≤ d) →
      get_rate t b c d (some .before) = (d, none)) ∧
    ((∃ r ∈ t, r.base = b ∧ r.target = c ∧ d ≤ r.date) →
      ∃ d0 ρ, get_rate t b c d (some .after) = (d0, some ρ) ∧
        (⟨d0, b, c, ρ⟩ : Row) ∈ t ∧ d ≤ d0 ∧
        ∀ r ∈ t, r.base = b → r.target = c → d ≤ r.date → d0 ≤ r.date) ∧
    ((¬ ∃ r ∈ t, r.base = b ∧ r.target = c ∧ d ≤ r.date) →
      get_rate t b c d (some .after) = (d, none)) := by
  have hgb : get_rate t b c d (some .before) =
      match queryBefore t b c d with
      | some row => (row.date, some row.rate)
      | none => (d, none) := by
    unfold get_rate
    rw [hex]
  have hga : get_rate t b c d (some .after) =
      match queryAfter t b c d with
      | some row => (row.date, some row.rate)
      | none => (d, none) := by
    unfold get_rate
    rw [hex]
  have hmemB : ∀ r : Row,
      r ∈ (pairRows t b c).filter (fun r => decide (r.date ≤ d)) ↔
        r ∈ t ∧ r.base = b ∧ r.target = c ∧ r.date ≤ d := by
    intro r
    rw [List.mem_filter, mem_pairRows]
    simp [and_assoc]
  have hmemA : ∀ r : Row,
      r ∈ (pairRows t b c).filter (fun r => decide (d ≤ r.date)) ↔
        r ∈ t ∧ r.base = b ∧ r.target = c ∧ d ≤ r.date := by
    intro r
    rw [List.mem_filter, mem_pairRows]
    simp [and_assoc]
  refine ⟨?_, ?_, ?_, ?_⟩
  · rintro ⟨r, hr, hrb, hrc, hrd⟩
    rcases hq : queryBefore t b c d with _ | row
    · unfold queryBefore at hq
      rw [argminBy_eq_none] at hq
      have := (hmemB r).mpr ⟨hr, hrb, hrc, hrd⟩
      rw [hq] at this
      simp at this
    · obtain ⟨hmem, hmin⟩ := argminBy_some _ _ _ hq
      obtain ⟨hrt, hb, hc, hd⟩ := (hmemB row).mp hmem
      refine ⟨row.date, row.rate, by rw [hgb, hq], ?_, hd, ?_⟩
      · rw [← row_eta row b c hb hc]
        exact hrt
      · intro s hs hsb hsc hsd
        have := hmin s ((hmemB s).mpr ⟨hs, hsb, hsc, hsd⟩)
        omega
  · intro hno
    rcases hq : queryBefore t b c d with _ | row
    · rw [hgb, hq]
    · obtain ⟨hmem, _⟩ := argminBy_some _ _ _ hq
      obtain ⟨hrt, hb, hc, hd⟩ := (hmemB row).mp hmem
      exact absurd ⟨row, hrt, hb, hc, hd⟩ hno
  · rintro ⟨r, hr, hrb, hrc, hrd⟩
    rcases hq : queryAfter t b c d with _ | row
    · unfold queryAfter at hq
      rw [argminBy_eq_none] at hq
      have := (hmemA r).mpr ⟨hr, hrb, hrc, hrd⟩
      rw [hq] at this
      simp at this
    · obtain ⟨hmem, hmin⟩ := argminBy_some _ _ _ hq
      obtain ⟨hrt, hb, hc, hd⟩ := (hmemA row).mp hmem
      refine ⟨row.date, row.rate, by rw [hga, hq], ?_, hd, ?_⟩
      · rw [← row_eta row b c hb hc]
        exact hrt
      · intro s hs hsb hsc hsd
        have := hmin s ((hmemA s).mpr ⟨hs, hsb, hsc, hsd⟩)
        omega
  · intro hno
    rcases hq : queryAfter t b c d with _ | row
    · rw [hga, hq]
    · obtain ⟨hmem, _⟩ := argminBy_some _ _ _ hq
      obtain ⟨hrt, hb, hc, hd⟩ := (hmemA row).mp hmem
      exact absurd ⟨row, hrt, hb, hc, hd⟩ hno

/-- C1 witness: with rates for the pair EUR/USD stored at days 3 and 7
and no row at day 5, the `'before'` lookup resolves to day 3 and the
`'after'` lookup to day 7. -/
theorem get_rate_before_after_spec_witness :
    ∃ d0 ρ, get_rate [⟨3, "EUR", "USD", 2⟩, ⟨7, "EUR", "USD", 3⟩] "EUR" "USD" 5
        (some .before) = (d0, some ρ) ∧
      (⟨d0, "EUR", "USD", ρ⟩ : Row) ∈ [⟨3, "EUR", "USD", 2⟩, ⟨7, "EUR", "USD", 3⟩] ∧
      d0 ≤ 5 ∧
      ∀ r ∈ [(⟨3, "EUR", "USD", 2⟩ : Row), ⟨7, "EUR", "USD", 3⟩],
        r.base = "EUR" → r.target = "USD" → r.date ≤ 5 → r.date ≤ d0 :=
  (get_rate_before_after_spec [⟨3, "EUR", "USD", 2⟩, ⟨7, "EUR", "USD", 3⟩]
      "EUR" "USD" 5 (by decide)).1
    ⟨⟨3, "EUR", "USD", 2⟩, by decide, by decide, by decide, by decide⟩

/-- C2. `get_rate` with `closest_rate = 'closest'` returns the rate at
the exact date when a row exists there; otherwise it returns a stored
rate of the pair at a date minimising the absolute day distance to `d`
(which minimiser is picked on a tie is left to the SQL sort); it returns
`(d, none)` exactly when the pair has no stored rate at any date. -/
theorem get_rate_closest_spec (t : Table) (b c : String) (d : Nat) :
    (∀ ρ, lookupRate t d b c = some ρ →
      get_rate t b c d (some .closest) = (d, some ρ)) ∧
    (lookupRate t d b c = none →
      ((∃ r ∈ t, r.base = b ∧ r.target = c) →
        ∃ d0 ρ, get_rate t b c d (some .closest) = (d0, some ρ) ∧
          (⟨d0, b, c, ρ⟩ : Row) ∈ t ∧
          ∀ r ∈ t, r.base = b → r.target = c →
            |(d0 : Int) - (d : Int)| ≤ |(r.date : Int) - (d : Int)|) ∧
      ((¬ ∃ r ∈ t, r.base = b ∧ r.target = c) →
        get_rate t b c d (some .closest) = (d, none))) := by
  constructor
  · intro ρ hρ
    unfold get_rate
    rw [hρ]
  · intro hex
    have hgc : get_rate t b c d (some .closest) =
        match queryClosest t b c d with
        | some row => (row.date, some row.rate)
        | none => (d, none) := by
      unfold get_rate
      rw [hex]
    constructor
    · rintro ⟨r, hr, hrb, hrc⟩
      rcases hq : queryClosest t b c d with _ | row
      · unfold queryClosest at hq
        rw [argminBy_eq_none] at hq
        have := (mem_pairRows t b c r).mpr ⟨hr, hrb, hrc⟩
        rw [hq] at this
        simp at this
      · obtain ⟨hmem, hmin⟩ := argminBy_some _ _ _ hq
        obtain ⟨hrt, hb, hc⟩ := (mem_pairRows t b c row).mp hmem
        refine ⟨row.date, row.rate, by rw [hgc, hq], ?_, ?_⟩
        · rw [← row_eta row b c hb hc]
          exact hrt
        · intro s hs hsb hsc
          exact hmin s ((mem_pairRows t b c s).mpr ⟨hs, hsb, hsc⟩)
    · intro hno
      rcases hq : queryClosest t b c d with _ | row
      · rw [hgc, hq]
      · obtain ⟨hmem, _⟩ := argminBy_some _ _ _ hq
        obtain ⟨hrt, hb, hc⟩ := (mem_pairRows t b c row).mp hmem
        exact absurd ⟨row, hrt, hb, hc⟩ hno

/-- C2 witness: the exact-date branch at day 3 and, at day 6, the
closest-date branch resolving to the nearer stored day 7. -/
theorem get_rate_closest_spec_witness :
    get_rate [⟨3, "EUR", "USD", 2⟩, ⟨7, "EUR", "USD", 3⟩] "EUR" "USD" 3
        (some .closest) = (3, some 2) ∧
    ∃ d0 ρ, get_rate [⟨3, "EUR", "USD", 2⟩, ⟨7, "EUR", "USD", 3⟩] "EUR" "USD" 6
        (some .closest) = (d0, some ρ) ∧
      (⟨d0, "EUR", "USD", ρ⟩ : Row) ∈ [⟨3, "EUR", "USD", 2⟩, ⟨7, "EUR", "USD", 3⟩] ∧
      ∀ r ∈ [(⟨3, "EUR", "USD", 2⟩ : Row), ⟨7, "EUR", "USD", 3⟩],
        r.base = "EUR" → r.target = "USD" →
          |(d0 : Int) - (6 : Int)| ≤ |(r.date : Int) - (6 : Int)| :=
  ⟨(get_rate_closest_spec [⟨3, "EUR", "USD", 2⟩, ⟨7, "EUR", "USD", 3⟩]
      "EUR" "USD" 3).1 2 (by decide),
   ((get_rate_closest_spec [⟨3, "EUR", "USD", 2⟩, ⟨7, "EUR", "USD", 3⟩]
      "EUR" "USD" 6).2 (by decide)).1
     ⟨⟨3, "EUR", "USD", 2⟩, by decide, by decide, by decide⟩⟩

end Ecbx

/-! ## Claim C3: `_calculate_cross_rates` -/

namespace Ecbx

/-- An INSERT OR REPLACE of a different key leaves a lookup unchanged. -/
theorem lookupRate_insert_ne (t : Table) (r : Row) (d : Nat) (b c : String)
    (h : r.key ≠ (d, b, c)) :
    lookupRate (insertRate t r) d b c = lookupRate t d b c := by
  rw [lookupRate_insertRate, if_neg h]

/-- The inner cross-rate loop only writes rows keyed
`(d0, base, tg)` with `tg` a non-EUR, non-`base` member of its list: any
other key's lookup is untouched. -/
theorem crossRatesForBase_frame (d0 : Nat) (base : String) (beur : Rat)
    (d : Nat) (b c : String) :
    ∀ (ts : List String) (acc : Table),
      (d ≠ d0 ∨ b ≠ base ∨ c = "EUR" ∨ c = base ∨ c ∉ ts) →
      lookupRate (crossRatesForBase d0 base beur ts acc) d b c =
        lookupRate acc d b c := by
  intro ts
  induction ts with
  | nil =>
    intro acc _
    rfl
  | cons tg ts ih =>
    intro acc hcond
    have hcond2 : d ≠ d0 ∨ b ≠ base ∨ c = "EUR" ∨ c = base ∨ c ∉ ts := by
      rcases hcond with h | h | h | h | h
      · exact Or.inl h
      · exact Or.inr (Or.inl h)
      · exact Or.inr (Or.inr (Or.inl h))
      · exact Or.inr (Or.inr (Or.inr (Or.inl h)))
      · exact Or.inr (Or.inr (Or.inr (Or.inr
          (fun hm => h (List.mem_cons_of_mem _ hm)))))
    unfold crossRatesForBase
    by_cases hskip : tg = "EUR" ∨ tg = base
    · rw [if_pos hskip]
      exact ih acc hcond2
    · rw [if_neg hskip]
      push_neg at hskip
      cases hl : lookupRate acc d0 "EUR" tg with
      | none => exact ih acc hcond2
      | some et =>
        rw [ih _ hcond2]
        apply lookupRate_insert_ne
        intro hkey
        simp only [Row.key, Prod.mk.injEq] at hkey
        obtain ⟨hd, hb2, hc2⟩ := hkey
        rcases hcond with h | h | h | h | h
        · exact absurd hd.symm h
        · exact absurd hb2.symm h
        · exact hskip.1 (hc2.trans h)
        · exact hskip.2 (hc2.trans h)
        · exact h (hc2 ▸ List.mem_cons_self tg ts)

/-- The outer cross-rate loop only writes rows keyed `(d0, bb, tg)` with
`bb` a non-EUR member of its list and `tg` non-EUR: any other key's
lookup is untouched. -/
theorem calcOuter_frame (d0 : Nat) (cs : List String) (d : Nat) (b c : String) :
    ∀ (bs : List String) (acc : Table),
      (d ≠ d0 ∨ b = "EUR" ∨ c = "EUR" ∨ b ∉ bs) →
      lookupRate (calcOuter d0 cs bs acc) d b c = lookupRate acc d b c := by
  intro bs
  induction bs with
  | nil =>
    intro acc _
    rfl
  | cons bb bs ih =>
    intro acc hcond
    have hcond2 : d ≠ d0 ∨ b = "EUR" ∨ c = "EUR" ∨ b ∉ bs := by
      rcases hcond with h | h | h | h
      · exact Or.inl h
      · exact Or.inr (Or.inl h)
      · exact Or.inr (Or.inr (Or.inl h))
      · exact Or.inr (Or.inr (Or.inr (fun hm => h (List.mem_cons_of_mem _ hm))))
    unfold calcOuter
    by_cases hskip : bb = "EUR"
    · rw [if_pos hskip]
      exact ih acc hcond2
    · rw [if_neg hskip]
      cases hl : lookupRate acc d0 bb "EUR" with
      | none => exact ih acc hcond2
      | some beur =>
        rw [ih _ hcond2]
        apply crossRatesForBase_frame
        rcases hcond with h | h | h | h
        · exact Or.inl h
        · exact Or.inr (Or.inl (h ▸ fun hbb => hskip hbb.symm))
        · exact Or.inr (Or.inr (Or.inl h))
        · exact Or.inr (Or.inl (fun hb => h (hb ▸ List.mem_cons_self bb bs)))

/-- `_calculate_cross_rates(d0)` leaves every row of another date, and
every EUR-quoted or inverse row, unchanged. -/
theorem calcCrossRates_frame (t : Table) (d0 : Nat) (d : Nat) (b c : String)
    (h : d ≠ d0 ∨ b = "EUR" ∨ c = "EUR") :
    lookupRate (calcCrossRates t d0) d b c = lookupRate t d b c := by
  unfold calcCrossRates
  apply calcOuter_frame
  rcases h with h | h | h
  · exact Or.inl h
  · exact Or.inr (Or.inl h)
  · exact Or.inr (Or.inr (Or.inl h))

/-- The currency list of `_calculate_cross_rates` holds exactly the
currencies with an EUR-quoted row at the date. -/
theorem mem_eurCurrencies (t : Table) (d : Nat) (x : String) :
    x ∈ eurCurrencies t d ↔ (lookupRate t d "EUR" x).isSome := by
  rw [lookupRate_isSome_iff]
  unfold eurCurrencies
  rw [List.mem_dedup, List.mem_map]
  constructor
  · rintro ⟨r, hr, hx⟩
    rw [List.mem_filter] at hr
    obtain ⟨hrt, hcond⟩ := hr
    simp only [Bool.and_eq_true, decide_eq_true_eq] at hcond
    exact ⟨r, hrt, by simp [Row.key, hcond.1, hcond.2, hx]⟩
  · rintro ⟨r, hr, hk⟩
    simp only [Row.key, Prod.mk.injEq] at hk
    refine ⟨r, ?_, hk.2.2⟩
    rw [List.mem_filter]
    exact ⟨hr, by simp [hk.1, hk.2.1]⟩

/-- The currency list is duplicate-free (`SELECT DISTINCT`). -/
theorem eurCurrencies_nodup (t : Table) (d : Nat) : (eurCurrencies t d).Nodup :=
  List.nodup_dedup _

/-- Once the inner loop reaches `target`, it writes the cross-rate row
`(d0, base, target)` with rate `rEt * beur`, and no later iteration
touches that key. -/
theorem crossRatesForBase_hit (d0 : Nat) (base target : String) (beur rEt : Rat)
    (hbase : base ≠ "EUR") (htE : target ≠ "EUR") (htb : target ≠ base) :
    ∀ (ts : List String) (acc : Table), target ∈ ts → ts.Nodup →
      lookupRate acc d0 "EUR" target = some rEt →
      lookupRate (crossRatesForBase d0 base beur ts acc) d0 base target =
        some (rEt * beur) := by
  intro ts
  induction ts with
  | nil =>
    intro acc hmem _ _
    simp at hmem
  | cons tg ts ih =>
    intro acc hmem hnd hlook
    unfold crossRatesForBase
    by_cases heq : tg = target
    · subst heq
      rw [if_neg (by push_neg; exact ⟨htE, htb⟩)]
      rw [hlook]
      rw [crossRatesForBase_frame d0 base beur d0 base tg ts _
        (Or.inr (Or.inr (Or.inr (Or.inr (List.Nodup.not_mem hnd)))))]
      simp [lookupRate_insertRate, Row.key]
    · have hmem2 : target ∈ ts := by
        rcases List.mem_cons.mp hmem with h | h
        · exact absurd h.symm heq
        · exact h
      by_cases hskip : tg = "EUR" ∨ tg = base
      · rw [if_pos hskip]
        exact ih acc hmem2 hnd.of_cons hlook
      · rw [if_neg hskip]
        cases hl : lookupRate acc d0 "EUR" tg with
        | none => exact ih acc hmem2 hnd.of_cons hlook
        | some et =>
          apply ih _ hmem2 hnd.of_cons
          rw [lookupRate_insert_ne]
          · exact hlook
          · intro hkey
            simp only [Row.key, Prod.mk.injEq] at hkey
            exact absurd hkey.2.1 hbase

/-- Once the outer loop reaches `base`, the final table holds the
cross-rate `(d0, base, target)` with rate `rEt * rbE`. -/
theorem calcOuter_hit (d0 : Nat) (cs : List String) (base target : String)
    (rbE rEt : Rat) (hbase : base ≠ "EUR") (htE : target ≠ "EUR")
    (htb : target ≠ base) (htmem : target ∈ cs) (hcsnd : cs.Nodup) :
    ∀ (bs : List String) (acc : Table), base ∈ bs → bs.Nodup →
      lookupRate acc d0 base "EUR" = some rbE →
      lookupRate acc d0 "EUR" target = some rEt →
      lookupRate (calcOuter d0 cs bs acc) d0 base target = some (rEt * rbE) := by
  intro bs
  induction bs with
  | nil =>
    intro acc hmem _ _ _
    simp at hmem
  | cons bb bs ih =>
    intro acc hmem hnd h1 h2
    unfold calcOuter
    by_cases heq : bb = base
    · subst heq
      rw [if_neg hbase]
      rw [h1]
      rw [calcOuter_frame d0 cs d0 bb target bs _
        (Or.inr (Or.inr (Or.inr (List.Nodup.not_mem hnd))))]
      exact crossRatesForBase_hit d0 bb target rbE rEt hbase htE htb cs acc
        htmem hcsnd h2
    · have hmem2 : base ∈ bs := by
        rcases List.mem_cons.mp hmem with h | h
        · exact absurd h.symm heq
        · exact h
      by_cases hskip : bb = "EUR"
      · rw [if_pos hskip]
        exact ih acc hmem2 hnd.of_cons h1 h2
      · rw [if_neg hskip]
        cases hl : lookupRate acc d0 bb "EUR" with
        | none => exact ih acc hmem2 hnd.of_cons h1 h2
        | some beur =>
          apply ih _ hmem2 hnd.of_cons
          · rw [crossRatesForBase_frame d0 bb beur d0 base "EUR" cs acc
              (Or.inr (Or.inr (Or.inl rfl)))]
            exact h1
          · rw [crossRatesForBase_frame d0 bb beur d0 "EUR" target cs acc
              (Or.inr (Or.inl (fun h => hskip h.symm)))]
            exact h2

/-- C3. For every date and every ordered pair of distinct non-EUR
currencies that both have a direct EUR-quoted rate stored for it (the
EUR-quoted row and its inverse, as ingestion stores them),
`_calculate_cross_rates` writes the row `(d0, base, target)` with rate
`rate(EUR, target, d0) * rate(base, EUR, d0)` into the table — one such
row for every such ordered pair. -/
theorem calcCrossRates_spec (t : Table) (d0 : Nat) (base target : String)
    (rEb rbE rEt : Rat)
    (hbase : base ≠ "EUR") (htE : target ≠ "EUR") (hbt : base ≠ target)
    (h1 : lookupRate t d0 "EUR" base = some rEb)
    (h2 : lookupRate t d0 base "EUR" = some rbE)
    (h3 : lookupRate t d0 "EUR" target = some rEt)
    (h4 : (lookupRate t d0 target "EUR").isSome) :
    lookupRate (calcCrossRates t d0) d0 base target = some (rEt * rbE) := by
  unfold calcCrossRates
  apply calcOuter_hit d0 (eurCurrencies t d0) base target rbE rEt hbase htE
    (Ne.symm hbt)
  · rw [mem_eurCurrencies, h3]
    rfl
  · exact eurCurrencies_nodup t d0
  · rw [mem_eurCurrencies, h1]
    rfl
  · exact eurCurrencies_nodup t d0
  · exact h2
  · exact h3

/-- C3 witness: with EUR-quoted and inverse rows for USD and JPY at day
3, the synthesized USD→JPY row holds the product of the stored
EUR→JPY and USD→EUR rates. -/
theorem calcCrossRates_spec_witness :
    lookupRate
      (calcCrossRates
        [⟨3, "EUR", "USD", 2⟩, ⟨3, "USD", "EUR", 3⟩,
         ⟨3, "EUR", "JPY", 160⟩, ⟨3, "JPY", "EUR", 7⟩] 3)
      3 "USD" "JPY" = some (160 * 3) :=
  calcCrossRates_spec
    [⟨3, "EUR", "USD", 2⟩, ⟨3, "USD", "EUR", 3⟩,
     ⟨3, "EUR", "JPY", 160⟩, ⟨3, "JPY", "EUR", 7⟩] 3 "USD" "JPY"
    2 3 160 (by decide) (by decide) (by decide) (by decide) (by decide)
    (by decide) (by decide)

end Ecbx

/-! ## Claim C5: `round_to_increment` -/

namespace HarvestRounder

/-- Python `int()` of a nonnegative rational is its floor. -/
theorem pyInt_eq_floor (q : Rat) (hq : 0 ≤ q) : pyInt q = ⌊q⌋ := by
  unfold pyInt
  rw [Int.tdiv_eq_ediv (Rat.num_nonneg.mpr hq) (Int.ofNat_nonneg q.den)]
  exact Rat.floor_def.symm

/-- A rational with denominator 1 is its own numerator. -/
theorem eq_num_of_den_eq_one (q : Rat) (h : q.den = 1) : (q.num : Rat) = q := by
  have := Rat.num_div_den q
  rw [h] at this
  simpa using this

/-- C5. For every nonnegative rational `hours` value and every positive
`increment_minutes`, `round_to_increment` returns the least multiple of
`increment_minutes / 60` hours that is `≥ hours`; in particular it
returns `hours` unchanged when that is already an exact multiple, so it
is idempotent and never decreases the hours. -/
theorem round_to_increment_spec (h : Rat) (m : Nat) (h0 : 0 ≤ h) (hm : 0 < m) :
    (∃ k : Nat, round_to_increment h m = (k : Rat) * ((m : Rat) / 60)) ∧
    h ≤ round_to_increment h m ∧
    (∀ k : Nat, h ≤ (k : Rat) * ((m : Rat) / 60) →
      round_to_increment h m ≤ (k : Rat) * ((m : Rat) / 60)) ∧
    ((∃ k : Nat, h = (k : Rat) * ((m : Rat) / 60)) → round_to_increment h m = h) := by
  have hincpos : (0 : Rat) < (m : Rat) / 60 := by
    apply div_pos
    · exact_mod_cast hm
    · norm_num
  by_cases hz : h = 0
  · have hr : round_to_increment h m = 0 := by
      simp [round_to_increment, hz]
    rw [hr, hz]
    refine ⟨⟨0, by simp⟩, le_refl 0, fun k hk => hk, fun _ => rfl⟩
  · have hq : h / ((m : Rat) / 60) * ((m : Rat) / 60) = h :=
      div_mul_cancel₀ h (ne_of_gt hincpos)
    have hqpos : 0 < h / ((m : Rat) / 60) :=
      div_pos (lt_of_le_of_ne h0 (Ne.symm hz)) hincpos
    by_cases hden : (h / ((m : Rat) / 60)).den = 1
    · have hr : round_to_increment h m = h := by
        simp only [round_to_increment]
        rw [if_neg hz, if_pos hden]
      rw [hr]
      have hnum : ((h / ((m : Rat) / 60)).num : Rat) = h / ((m : Rat) / 60) :=
        eq_num_of_den_eq_one _ hden
      have hnn : 0 ≤ (h / ((m : Rat) / 60)).num := Rat.num_nonneg.mpr hqpos.le
      refine ⟨⟨(h / ((m : Rat) / 60)).num.toNat, ?_⟩, le_refl h,
        fun k hk => hk, fun _ => rfl⟩
      have hc : ((h / ((m : Rat) / 60)).num.toNat : Rat) = h / ((m : Rat) / 60) := by
        rw [← hnum]
        exact_mod_cast congrArg (fun z : Int => (z : Rat)) (Int.toNat_of_nonneg hnn)
      rw [hc, hq]
    · have hr : round_to_increment h m =
          ((m : Rat) / 60) * ((⌊h / ((m : Rat) / 60)⌋ + 1 : Int) : Rat) := by
        simp only [round_to_increment]
        rw [if_neg hz, if_neg hden, pyInt_eq_floor _ hqpos.le]
      have hfl : ((⌊h / ((m : Rat) / 60)⌋ : Rat)) ≤ h / ((m : Rat) / 60) :=
        Int.floor_le _
      have hfu : h / ((m : Rat) / 60) < (⌊h / ((m : Rat) / 60)⌋ : Rat) + 1 :=
        Int.lt_floor_add_one _
      have hflt : ((⌊h / ((m : Rat) / 60)⌋ : Rat)) < h / ((m : Rat) / 60) := by
        rcases lt_or_eq_of_le hfl with hlt | heq
        · exact hlt
        · exact absurd (congrArg Rat.den heq.symm) (by simpa using hden)
      have hfnn : 0 ≤ ⌊h / ((m : Rat) / 60)⌋ := Int.floor_nonneg.mpr hqpos.le
      rw [hr]
      refine ⟨⟨(⌊h / ((m : Rat) / 60)⌋ + 1).toNat, ?_⟩, ?_, ?_, ?_⟩
      · rw [mul_comm]
        congr 1
        exact_mod_cast (Int.toNat_of_nonneg (by omega)).symm
      · calc h = h / ((m : Rat) / 60) * ((m : Rat) / 60) := hq.symm
          _ ≤ ((⌊h / ((m : Rat) / 60)⌋ : Rat) + 1) * ((m : Rat) / 60) :=
            mul_le_mul_of_nonneg_right hfu.le hincpos.le
          _ = ((m : Rat) / 60) * ((⌊h / ((m : Rat) / 60)⌋ + 1 : Int) : Rat) := by
            push_cast
            ring
      · intro k hk
        have hqk : h / ((m : Rat) / 60) ≤ (k : Rat) := by
          rw [div_le_iff₀ hincpos]
          exact hk
        have hik : ⌊h / ((m : Rat) / 60)⌋ + 1 ≤ (k : Int) := by
          have : ((⌊h / ((m : Rat) / 60)⌋ : Rat)) < (k : Rat) := lt_of_lt_of_le hflt hqk
          have h2 : ⌊h / ((m : Rat) / 60)⌋ < (k : Int) := by exact_mod_cast this
          omega
        calc ((m : Rat) / 60) * ((⌊h / ((m : Rat) / 60)⌋ + 1 : Int) : Rat)
            ≤ ((m : Rat) / 60) * ((k : Int) : Rat) := by
              apply mul_le_mul_of_nonneg_left _ hincpos.le
              exact_mod_cast hik
          _ = (k : Rat) * ((m : Rat) / 60) := by
              push_cast
              ring
      · rintro ⟨k, hkeq⟩
        exfalso
        apply hden
        have : h / ((m : Rat) / 60) = (k : Rat) := by
          rw [hkeq]
          field_simp
        rw [this]
        exact Rat.den_natCast k

/-- C5 witness: at 3/4 of an hour and a 15-minute increment the
hypotheses hold and the rounded value is 3/4 itself. -/
theorem round_to_increment_spec_witness :
    (0 : Rat) ≤ 3 / 4 ∧ 0 < 15 ∧ round_to_increment (3 / 4) 15 = 3 / 4 :=
  ⟨by norm_num, by norm_num,
    (round_to_increment_spec (3 / 4) 15 (by norm_num) (by norm_num)).2.2.2
      ⟨3, by norm_num⟩⟩

end HarvestRounder

/-! ## Claim C4: cross-rates are not persisted by `initialize()` -/

namespace Ecbx

/-- The sample data of the repository's own
`tests/test_exchange_rate_store.py` (dates `2024-01-04` and `2024-01-05`
as day indices 4 and 5), whose `test_cross_rates` expects a USD→JPY rate
to be queryable right after `initialize()`. -/
def sampleData : List DayData :=
  [⟨4, [("USD", 10945 / 10000), ("JPY", 15889 / 100), ("GBP", 8578 / 10000)]⟩,
   ⟨5, [("USD", 10955 / 10000), ("JPY", 15789 / 100), ("GBP", 8569 / 10000)]⟩]

/-- A later 90-day feed with two dates newer than `last_updated = 5`. -/
def sampleFeed : List DayData :=
  [⟨6, [("USD", 11 / 10), ("JPY", 158)]⟩, ⟨7, [("USD", 12 / 10), ("JPY", 159)]⟩]

/-- C4 (the code violates the claim).  After `initialize()` both USD and
JPY have direct EUR-quoted rates for date 5, yet no cross-rate row was
persisted and `get_rate("USD","JPY",5)` finds nothing: `initialize()`
never calls `_calculate_cross_rates` (the repository's own
`test_cross_rates` expects otherwise).  A subsequent `update()` that
ingests the two new dates 6 and 7 persists cross-rates only for the
latest date 7, not for date 6. -/
theorem initializeStore_no_cross_rates :
    (lookupRate (initializeStore DB.empty sampleData).rates 5 "EUR" "USD").isSome ∧
    (lookupRate (initializeStore DB.empty sampleData).rates 5 "EUR" "JPY").isSome ∧
    get_rate (initializeStore DB.empty sampleData).rates "USD" "JPY" 5 none = (5, none) ∧
    lookupRate (updateStore (initializeStore DB.empty sampleData) sampleFeed).rates
      6 "USD" "JPY" = none ∧
    (lookupRate (updateStore (initializeStore DB.empty sampleData) sampleFeed).rates
      7 "USD" "JPY").isSome := by
  decide

end Ecbx

/-! ## Claims C8 and C9: ingestion frame and pairing invariant -/

namespace Ecbx

/-- The two lookups an `ingestEntry` can change: its inverse row's key
first (inserted last), then its EUR-quoted row's key. -/
theorem lookupRate_ingestEntry (t : Table) (d0 : Nat) (c0 : String) (r : Rat)
    (d : Nat) (b c : String) :
    lookupRate (ingestEntry t d0 c0 r) d b c =
      if (d0, c0, "EUR") = (d, b, c) then some (1 / r)
      else if (d0, "EUR", c0) = (d, b, c) then some r
      else lookupRate t d b c := by
  unfold ingestEntry
  rw [lookupRate_insertRate, lookupRate_insertRate]
  rfl

/-- Ingesting a day's entries leaves every other date's lookups
unchanged. -/
theorem lookup_foldEntries_ne (d0 : Nat) (ps : List (String × Rat))
    (t : Table) (d : Nat) (b c : String) (hd : d0 ≠ d) :
    lookupRate (ps.foldl (fun acc p => ingestEntry acc d0 p.1 p.2) t) d b c =
      lookupRate t d b c := by
  induction ps generalizing t with
  | nil => rfl
  | cons p ps ih =>
    rw [List.foldl_cons, ih, lookupRate_ingestEntry]
    rw [if_neg (by simp [hd]), if_neg (by simp [hd])]

/-- Ingesting entries touches only EUR-quoted and inverse rows: lookups
of non-EUR pairs are unchanged. -/
theorem lookup_foldEntries_nonEUR (d0 : Nat) (ps : List (String × Rat))
    (t : Table) (d : Nat) (b c : String) (hb : b ≠ "EUR") (hc : c ≠ "EUR") :
    lookupRate (ps.foldl (fun acc p => ingestEntry acc d0 p.1 p.2) t) d b c =
      lookupRate t d b c := by
  induction ps generalizing t with
  | nil => rfl
  | cons p ps ih =>
    rw [List.foldl_cons, ih, lookupRate_ingestEntry]
    rw [if_neg (by simp [Prod.mk.injEq]; intro _ _ h; exact absurd h.symm hc),
      if_neg (by simp [Prod.mk.injEq]; intro _ h; exact absurd h.symm hb)]

/-- Date-frame for ingesting a list of days. -/
theorem lookup_ingestData_ne (data : List DayData) (t : Table) (d : Nat)
    (b c : String) (h : ∀ day ∈ data, day.date ≠ d) :
    lookupRate (data.foldl ingestDay t) d b c = lookupRate t d b c := by
  induction data generalizing t with
  | nil => rfl
  | cons day rest ih =>
    rw [List.foldl_cons]
    rw [ih _ (fun x hx => h x (List.mem_cons_of_mem day hx))]
    exact lookup_foldEntries_ne day.date day.rates t d b c
      (h day (List.mem_cons_self day rest))

/-- Non-EUR-pair frame for ingesting a list of days. -/
theorem lookup_ingestData_nonEUR (data : List DayData) (t : Table) (d : Nat)
    (b c : String) (hb : b ≠ "EUR") (hc : c ≠ "EUR") :
    lookupRate (data.foldl ingestDay t) d b c = lookupRate t d b c := by
  induction data generalizing t with
  | nil => rfl
  | cons day rest ih =>
    rw [List.foldl_cons, ih]
    exact lookup_foldEntries_nonEUR day.date day.rates t d b c hb hc

/-- The running maximum is one of the dates it ran over. -/
theorem latestDate_mem (days : List DayData) (m : Nat)
    (h : latestDate days = some m) : ∃ day ∈ days, day.date = m := by
  induction days with
  | nil => simp [latestDate] at h
  | cons day rest ih =>
    unfold latestDate at h
    cases hres : latestDate rest with
    | none =>
      rw [hres] at h
      simp only [Option.some.injEq] at h
      exact ⟨day, List.mem_cons_self day rest, h⟩
    | some m2 =>
      rw [hres] at h
      simp only [Option.some.injEq] at h
      rcases max_choice day.date m2 with hmax | hmax
      · exact ⟨day, List.mem_cons_self day rest, by omega⟩
      · have hm2 : m2 = m := hmax.symm.trans h
        obtain ⟨d2, hd2, hd2m⟩ := ih (by rw [hres, hm2])
        exact ⟨d2, List.mem_cons_of_mem day hd2, hd2m⟩

/-- Every kept day of an `update()` run is strictly newer than the
recorded `last_updated`. -/
theorem newDays_gt (l : Nat) (data : List DayData) (day : DayData)
    (h : day ∈ data.filter (newDay (some l))) : l < day.date := by
  rw [List.mem_filter] at h
  have := h.2
  simp only [newDay, decide_eq_true_eq] at this
  exact this

/-- C8. For every database state whose metadata records
`last_updated = L`, `update()` leaves every row of date `≤ L` unchanged
(new EUR-quoted and inverse rows target only fetched dates strictly
newer than `L`); moreover a non-EUR pair row can change only at the
latest newly fetched date — the one date cross-rates are recomputed
for. -/
theorem updateStore_frame (db : DB) (l : Nat) (data : List DayData)
    (d : Nat) (b c : String) (hl : db.lastUpdated = some l) :
    (d ≤ l →
      lookupRate (updateStore db data).rates d b c = lookupRate db.rates d b c) ∧
    (b ≠ "EUR" → c ≠ "EUR" →
      lookupRate (updateStore db data).rates d b c ≠ lookupRate db.rates d b c →
      latestDate (data.filter (newDay db.lastUpdated)) = some d) := by
  cases hm : latestDate (data.filter (newDay db.lastUpdated)) with
  | none =>
    have hrates : (updateStore db data).rates =
        (data.filter (newDay db.lastUpdated)).foldl ingestDay db.rates := by
      simp only [updateStore, hm]
    rw [hrates]
    constructor
    · intro hd
      apply lookup_ingestData_ne
      intro day hday
      rw [hl] at hday
      have := newDays_gt l data day hday
      omega
    · intro hb hc hchanged
      exact absurd (lookup_ingestData_nonEUR _ _ _ _ _ hb hc) hchanged
  | some m =>
    have hrates : (updateStore db data).rates =
        calcCrossRates
          ((data.filter (newDay db.lastUpdated)).foldl ingestDay db.rates) m := by
      simp only [updateStore, hm]
    rw [hrates]
    obtain ⟨day, hday, hdm⟩ := latestDate_mem _ _ hm
    have hmgt : l < m := by
      rw [hl] at hday
      exact hdm ▸ newDays_gt l data day hday
    constructor
    · intro hd
      rw [calcCrossRates_frame _ _ _ _ _ (Or.inl (by omega))]
      apply lookup_ingestData_ne
      intro day2 hday2
      rw [hl] at hday2
      have := newDays_gt l data day2 hday2
      omega
    · intro hb hc hchanged
      by_cases hdm2 : d = m
      · rw [hdm2]
      · rw [calcCrossRates_frame _ _ _ _ _ (Or.inl hdm2),
          lookup_ingestData_nonEUR _ _ _ _ _ hb hc] at hchanged
        exact absurd rfl hchanged

/-- C8 witness: a stored EUR→USD row at day 3 survives an `update()`
with `last_updated = 5` that fetches day 9. -/
theorem updateStore_frame_witness :
    lookupRate
      (updateStore ⟨[⟨3, "EUR", "USD", 2⟩], some 5⟩ [⟨9, [("USD", 3)]⟩]).rates
      3 "EUR" "USD" =
    lookupRate [⟨3, "EUR", "USD", 2⟩] 3 "EUR" "USD" :=
  (updateStore_frame ⟨[⟨3, "EUR", "USD", 2⟩], some 5⟩ 5 [⟨9, [("USD", 3)]⟩]
    3 "EUR" "USD" rfl).1 (by decide)

/-- The pairing invariant of C9: an EUR-quoted row exists exactly when
its inverse row does. -/
def PairOk (t : Table) : Prop :=
  ∀ d c, (lookupRate t d "EUR" c).isSome ↔ (lookupRate t d c "EUR").isSome

/-- Ingesting one entry inserts both directions, so pairing is kept. -/
theorem pairOk_ingestEntry (t : Table) (d0 : Nat) (c0 : String) (r : Rat)
    (h : PairOk t) : PairOk (ingestEntry t d0 c0 r) := by
  intro d c
  have hdc := h d c
  rw [lookupRate_ingestEntry, lookupRate_ingestEntry]
  split_ifs <;> (try exact Iff.rfl) <;> simp_all [Prod.mk.injEq]

/-- Pairing is kept by a day's entry fold. -/
theorem pairOk_foldEntries (d0 : Nat) (ps : List (String × Rat)) (t : Table)
    (h : PairOk t) :
    PairOk (ps.foldl (fun acc p => ingestEntry acc d0 p.1 p.2) t) := by
  induction ps generalizing t with
  | nil => exact h
  | cons p ps ih =>
    rw [List.foldl_cons]
    exact ih _ (pairOk_ingestEntry t d0 p.1 p.2 h)

/-- Pairing is kept by ingesting a list of days. -/
theorem pairOk_ingestData (data : List DayData) (t : Table) (h : PairOk t) :
    PairOk (data.foldl ingestDay t) := by
  induction data generalizing t with
  | nil => exact h
  | cons day rest ih =>
    rw [List.foldl_cons]
    exact ih _ (pairOk_foldEntries day.date day.rates t h)

/-- Cross-rate rows pair no EUR side, so pairing is kept. -/
theorem pairOk_calcCrossRates (t : Table) (d0 : Nat) (h : PairOk t) :
    PairOk (calcCrossRates t d0) := by
  intro d c
  rw [calcCrossRates_frame t d0 d "EUR" c (Or.inr (Or.inl rfl)),
    calcCrossRates_frame t d0 d c "EUR" (Or.inr (Or.inr rfl))]
  exact h d c

/-- `initialize()` keeps the pairing invariant. -/
theorem pairOk_initializeStore (db : DB) (data : List DayData)
    (h : PairOk db.rates) : PairOk (initializeStore db data).rates := by
  unfold initializeStore
  cases hl : latestDate data <;>
    simp only [hl] <;> exact pairOk_ingestData data db.rates h

/-- `update()` keeps the pairing invariant. -/
theorem pairOk_updateStore (db : DB) (data : List DayData)
    (h : PairOk db.rates) : PairOk (updateStore db data).rates := by
  unfold updateStore
  cases hl : latestDate (data.filter (newDay db.lastUpdated)) with
  | none =>
    simp only [hl]
    exact pairOk_ingestData _ db.rates h
  | some m =>
    simp only [hl]
    exact pairOk_calcCrossRates _ m (pairOk_ingestData _ db.rates h)

/-- C9. Every ingestion of a parsed `(date, currency, rate)` triple
inserts the EUR-quoted row with rate `r` and the inverse row with rate
`1 / r`; hence in every reachable database state the rates table holds an
`(EUR, c)` row for a date exactly when it holds the matching `(c, EUR)`
row for that date. -/
theorem ingest_pairing_spec :
    (∀ (t : Table) (d : Nat) (c : String) (r : Rat), c ≠ "EUR" →
      lookupRate (ingestEntry t d c r) d "EUR" c = some r ∧
      lookupRate (ingestEntry t d c r) d c "EUR" = some (1 / r)) ∧
    ∀ db, Reachable db → ∀ d c,
      (lookupRate db.rates d "EUR" c).isSome ↔
        (lookupRate db.rates d c "EUR").isSome := by
  constructor
  · intro t d c r hc
    constructor
    · rw [lookupRate_ingestEntry]
      simp [Prod.mk.injEq, hc, Ne.symm hc]
    · rw [lookupRate_ingestEntry]
      simp [Prod.mk.injEq]
  · intro db hdb
    induction hdb with
    | empty => intro d c; rfl
    | init db data _ _ ih => exact pairOk_initializeStore db data ih
    | upd db data _ _ ih => exact pairOk_updateStore db data ih

end Ecbx

/-! ## Claim C7: `ObjectResolver.get_object` -/

namespace Sevdesk

/-- Dict lookup after a dict assignment. -/
theorem mapLookup_mapInsert (m : ObjMap) (k : String) (e : Entry) (key : String) :
    mapLookup (mapInsert m k e) key = if k = key then some e else mapLookup m key := by
  unfold mapLookup mapInsert
  by_cases hk : k = key
  · rw [List.find?_cons_of_pos _ (by simpa using hk)]
    simp [hk]
  · rw [List.find?_cons_of_neg _ (by simpa using hk)]
    rw [Ecbx.find?_filter_of_imp]
    · simp [hk]
    · intro a ha
      simp only [decide_eq_true_eq] at ha
      simp only [Bool.not_eq_true', decide_eq_false_iff_not]
      rw [ha]
      exact fun hh => hk hh.symm

/-- Cache lookup right after a cache assignment of the same key. -/
theorem cacheLookup_cacheInsert_same (cache : Cache) (ck : ObjectType × String)
    (m : ObjMap) : cacheLookup (cacheInsert cache ck m) ck = some m := by
  unfold cacheLookup cacheInsert
  rw [List.find?_cons_of_pos _ (by simp)]
  rfl

/-- A key is present in the map the `_fetch_objects` fold builds exactly
when it was present before or some walked object carries it as a
non-empty key-field value. -/
theorem mapLookup_fetchFold_isSome (ot : ObjectType) (kf key : String) :
    ∀ (os : List RawObj) (m0 : ObjMap),
      (mapLookup (os.foldl (fetchStep ot kf) m0) key).isSome ↔
      ((mapLookup m0 key).isSome ∨ ∃ o ∈ os, o.get kf = some key ∧ key ≠ "") := by
  intro os
  induction os with
  | nil =>
    intro m0
    simp
  | cons o os ih =>
    intro m0
    rw [List.foldl_cons, ih]
    have hstep : (mapLookup (fetchStep ot kf m0 o) key).isSome ↔
        ((mapLookup m0 key).isSome ∨ (o.get kf = some key ∧ key ≠ "")) := by
      cases hg : o.get kf with
      | none =>
        have he : fetchStep ot kf m0 o = m0 := by
          unfold fetchStep
          rw [hg]
        simp [he, hg]
      | some kv =>
        have he : fetchStep ot kf m0 o =
            if kv = "" then m0 else mapInsert m0 kv (mkEntry ot o) := by
          unfold fetchStep
          rw [hg]
        rw [he]
        by_cases hkv : kv = ""
        · subst hkv
          simp only [if_pos rfl]
          constructor
          · exact Or.inl
          · rintro (h | ⟨hk, hne⟩)
            · exact h
            · simp only [Option.some.injEq] at hk
              exact absurd hk.symm hne
        · rw [if_neg hkv, mapLookup_mapInsert]
          by_cases hkk : kv = key
          · subst hkk
            simp [hkv]
          · rw [if_neg hkk]
            constructor
            · exact Or.inl
            · rintro (h | ⟨hk, _⟩)
              · exact h
              · simp only [Option.some.injEq] at hk
                exact absurd hk hkk
    rw [hstep]
    constructor
    · rintro ((h | h) | ⟨o2, ho2, hk⟩)
      · exact Or.inl h
      · exact Or.inr ⟨o, List.mem_cons_self o os, h⟩
      · exact Or.inr ⟨o2, List.mem_cons_of_mem o ho2, hk⟩
    · rintro (h | ⟨o2, ho2, hk⟩)
      · exact Or.inl (Or.inl h)
      · rcases List.mem_cons.mp ho2 with he | hm
        · exact Or.inl (Or.inr (he ▸ hk))
        · exact Or.inr ⟨o2, hm, hk⟩

/-- The fetched map holds a key exactly when some fetched object has it
as a non-empty key-field value. -/
theorem fetchObjects_key_isSome (api : ObjectType → List RawObj)
    (ot : ObjectType) (kf key : String) :
    (mapLookup (fetchObjects api ot kf) key).isSome ↔
      ∃ o ∈ api ot, o.get kf = some key ∧ key ≠ "" := by
  unfold fetchObjects
  rw [mapLookup_fetchFold_isSome]
  simp [mapLookup]

/-- C7, amended: against a fixed API response and a cache whose entries
agree with it, `get_object` raises `ValueError` exactly when no fetched
object of the type has a non-empty `key_field` value equal to `key`
(objects whose key field is absent or empty are skipped when the map is
built, so the empty key is never resolvable); otherwise it returns the
cached entry for `key` — the one the fetched map holds, which by
construction carries at least `id`, `name` and `objectName`. -/
theorem get_object_spec (api : ObjectType → List RawObj) (cache : Cache)
    (ot : ObjectType) (key keyField : String)
    (hcons : CacheConsistent api cache) :
    (isError (get_object api cache ot key keyField).2 = true ↔
      ¬ ∃ o ∈ api ot, o.get keyField = some key ∧ key ≠ "") ∧
    ∀ e, (get_object api cache ot key keyField).2 = .ok e →
      mapLookup (fetchObjects api ot keyField) key = some e := by
  have hres : (get_object api cache ot key keyField).2 =
      match mapLookup (fetchObjects api ot keyField) key with
      | some e => .ok e
      | none =>
        .error (ot.value ++ " with " ++ keyField ++ " = " ++ key ++ " not found") := by
    unfold get_object
    cases hcl : cacheLookup cache (ot, keyField) with
    | some m =>
      have hm := hcons ot keyField m hcl
      simp only [hcl, hm, Option.getD_some]
      cases hmk : mapLookup (fetchObjects api ot keyField) key <;> simp [hmk]
    | none =>
      simp only [hcl, cacheLookup_cacheInsert_same, Option.getD_some]
      cases hmk : mapLookup (fetchObjects api ot keyField) key <;> simp [hmk]
  constructor
  · rw [hres, ← fetchObjects_key_isSome api ot keyField key]
    cases hmk : mapLookup (fetchObjects api ot keyField) key <;> simp [hmk, isError]
  · intro e he
    rw [hres] at he
    cases hmk : mapLookup (fetchObjects api ot keyField) key with
    | some e2 =>
      rw [hmk] at he
      simp only [Except.ok.injEq] at he
      rw [he]
    | none =>
      rw [hmk] at he
      simp at he

/-- The one-object API of the C7 counterexample: its only Unity object
carries the empty string as its `translationCode`. -/
def api0 : ObjectType → List RawObj := fun _ => [⟨1, [("translationCode", "")]⟩]

/-- C7 counterexample: a fetched object has `key_field` equal to the
looked-up key (both the empty string), yet `get_object` raises, because
`_fetch_objects` skips falsy key values — against the claim's iff. -/
theorem get_object_empty_key_counterexample :
    (∃ o ∈ api0 ObjectType.unity, o.get "translationCode" = some "") ∧
    isError (get_object api0 [] ObjectType.unity "" "translationCode").2 = true := by
  decide

/-- The one-object API of the C7 witness. -/
def api1 : ObjectType → List RawObj :=
  fun _ => [⟨2, [("translationCode", "UNITY_HOUR"), ("name", "Hour")]⟩]

/-- C7 witness: the amended theorem applied to a fixed API and the empty
(vacuously consistent) cache. -/
theorem get_object_spec_witness :
    (isError (get_object api1 [] ObjectType.unity "UNITY_HOUR" "translationCode").2 =
        true ↔
      ¬ ∃ o ∈ api1 ObjectType.unity,
        o.get "translationCode" = some "UNITY_HOUR" ∧ "UNITY_HOUR" ≠ "") ∧
    ∀ e, (get_object api1 [] ObjectType.unity "UNITY_HOUR" "translationCode").2 = .ok e →
      mapLookup (fetchObjects api1 ObjectType.unity "translationCode") "UNITY_HOUR" =
        some e :=
  get_object_spec api1 [] ObjectType.unity "UNITY_HOUR" "translationCode"
    (fun _ _ _ h => Option.noConfusion h)

end Sevdesk
